import Mathlib

/-!
# Verification of the pathvein pattern-matching and copy engine

Shallow embedding of the pathvein repository: the glob matcher
(`_path_utils.pattern_match` / `fnmatch`), the `FileStructureRequirement`
tree model with its builder and JSON round trip (`requirements.py`), the
structural matcher (`FileStructureRequirement.matches`), the copy engine
(`FileStructureRequirement.copy`, `lib.shuffle`, `lib.shuffle_to`), the
directory walker (`_path_utils.walk` / `iterdir`) and `lib.scan` /
`lib.assess`.  The filesystem is modelled as a finite list of
(absolute path, entry) bindings; paths are lists of components.
-/

namespace Pathvein

/-! ## Glob matcher

Embeds `fnmatch` semantics as used by `_path_utils.pattern_match`
(`re.compile(fnmatch.translate(pattern)).match(name)`) and by
`fnmatch.fnmatch` / `PurePath.match` in `requirements.py`.  Exactly as
in the source, matching happens in two stages: the glob pattern is
translated to a sequence of regex tokens (`fnmatch.translate`), and the
token sequence is matched against the entire name (`re.match` of an
anchored pattern).  Supported syntax: `*`, `?`, bracket expressions
with `!` negation and `a-b` ranges; an unterminated `[` is a literal. -/

/-- Split the characters after a `[` at the closing `]`.
Returns the bracket contents and the remaining pattern. -/
def findClose : List Char → Option (List Char × List Char)
  | [] => none
  | c :: r =>
      if c = ']' then some ([], r)
      else (findClose r).map (fun p => (c :: p.1, p.2))

theorem findClose_length_lt : ∀ (l a r : List Char),
    findClose l = some (a, r) → r.length < l.length := by
  intro l
  induction l with
  | nil => intro a r h; simp [findClose] at h
  | cons c cs ih =>
    intro a r h
    by_cases hc : c = ']'
    · simp [findClose, hc] at h
      simp [← h.2]
    · simp only [findClose, hc, if_false, Option.map_eq_some'] at h
      obtain ⟨p, hp, heq⟩ := h
      have := ih p.1 p.2 (by rw [hp])
      have h2 : p.2.length = r.length := congrArg (fun t => t.2.length) heq
      simp only [List.length_cons]
      omega

/-- Parse a bracket expression body: optional leading `!` negation; a `]`
in first position is a literal member (mirrors `fnmatch.translate`). -/
def splitBracket (ps : List Char) : Option (Bool × List Char × List Char) :=
  match ps with
  | [] => none
  | c :: cs =>
    if c = '!' then
      match cs with
      | [] => none
      | d :: ds =>
        if d = ']' then (findClose ds).map (fun p => (true, ']' :: p.1, p.2))
        else (findClose cs).map (fun p => (true, p.1, p.2))
    else
      if c = ']' then (findClose cs).map (fun p => (false, ']' :: p.1, p.2))
      else (findClose (c :: cs)).map (fun p => (false, c :: p.1, p.2))

theorem splitBracket_length_le (ps : List Char) (neg : Bool) (a r : List Char)
    (h : splitBracket ps = some (neg, a, r)) : r.length ≤ ps.length := by
  unfold splitBracket at h
  split at h
  · exact absurd h (by simp)
  · rename_i c cs
    split at h
    · split at h
      · exact absurd h (by simp)
      · rename_i d ds
        split at h
        · rw [Option.map_eq_some'] at h
          obtain ⟨p, hp, hq⟩ := h
          have hb := findClose_length_lt ds p.1 p.2 (by rw [hp])
          have h3 : p.2.length = r.length := congrArg (fun t => t.2.2.length) hq
          simp only [List.length_cons]
          omega
        · rw [Option.map_eq_some'] at h
          obtain ⟨p, hp, hq⟩ := h
          have hb := findClose_length_lt (d :: ds) p.1 p.2 (by rw [hp])
          have h3 : p.2.length = r.length := congrArg (fun t => t.2.2.length) hq
          simp only [List.length_cons] at hb ⊢
          omega
    · split at h
      · rw [Option.map_eq_some'] at h
        obtain ⟨p, hp, hq⟩ := h
        have hb := findClose_length_lt cs p.1 p.2 (by rw [hp])
        have h3 : p.2.length = r.length := congrArg (fun t => t.2.2.length) hq
        simp only [List.length_cons]
        omega
      · rw [Option.map_eq_some'] at h
        obtain ⟨p, hp, hq⟩ := h
        have hb := findClose_length_lt (c :: cs) p.1 p.2 (by rw [hp])
        have h3 : p.2.length = r.length := congrArg (fun t => t.2.2.length) hq
        simp only [List.length_cons] at hb ⊢
        omega

/-- Membership of a character in bracket contents, with `a-b` ranges
compared by code point. -/
def memBracket : List Char → Char → Bool
  | [], _ => false
  | a :: b :: e :: rest2, c =>
      if b = '-' then
        (decide (a.toNat ≤ c.toNat) && decide (c.toNat ≤ e.toNat)) || memBracket rest2 c
      else decide (a = c) || memBracket (b :: e :: rest2) c
  | a :: rest, c => decide (a = c) || memBracket rest c

/-- One token of the regex produced by `fnmatch.translate`:
`*` becomes a match-anything token, `?` a match-one token, a bracket
expression a character class, everything else an escaped literal. -/
inductive GlobTok where
  | star
  | anyChar
  | lit (c : Char)
  | cls (neg : Bool) (content : List Char)
  deriving DecidableEq

/-- Token-by-token translation of a glob pattern (`fnmatch.translate`).
The fuel argument only drives the recursion; `fuel = input length`
always suffices (`translateAux_fuel_irrelevant`). -/
def translateAux : Nat → List Char → List GlobTok
  | _, [] => []
  | 0, _ :: _ => []
  | fuel + 1, c :: cs =>
    if c = '*' then .star :: translateAux fuel cs
    else if c = '?' then .anyChar :: translateAux fuel cs
    else if c = '[' then
      match splitBracket cs with
      | some (neg, content, rest) => .cls neg content :: translateAux fuel rest
      | none => .lit '[' :: translateAux fuel cs
    else .lit c :: translateAux fuel cs

def translate (p : List Char) : List GlobTok :=
  translateAux p.length p

theorem translateAux_fuel_irrelevant :
    ∀ (fuel fuel2 : Nat) (p : List Char), p.length ≤ fuel → p.length ≤ fuel2 →
      translateAux fuel p = translateAux fuel2 p := by
  intro fuel
  induction fuel with
  | zero =>
    intro fuel2 p h1 _
    cases p with
    | nil => cases fuel2 <;> simp [translateAux]
    | cons c cs => simp at h1
  | succ f ih =>
    intro fuel2 p h1 h2
    cases p with
    | nil => cases fuel2 <;> simp [translateAux]
    | cons c cs =>
      cases fuel2 with
      | zero => simp at h2
      | succ f2 =>
        simp only [List.length_cons] at h1 h2
        by_cases hs : c = '*'
        · simp [translateAux, hs, ih f2 cs (by omega) (by omega)]
        · by_cases hq : c = '?'
          · simp [translateAux, hs, hq, ih f2 cs (by omega) (by omega)]
          · by_cases hb : c = '['
            · subst hb
              cases hsb : splitBracket cs with
              | none => simp [translateAux, hs, hq, hsb, ih f2 cs (by omega) (by omega)]
              | some t =>
                obtain ⟨neg, content, rest⟩ := t
                have hr := splitBracket_length_le cs neg content rest hsb
                simp [translateAux, hs, hq, hsb, ih f2 rest (by omega) (by omega)]
            · simp [translateAux, hs, hq, hb, ih f2 cs (by omega) (by omega)]

/-- Anchored match of a token sequence against an entire name
(`re.match` plus the terminal anchor that `fnmatch.translate` emits):
the tokens must consume the whole name. -/
def matchTokens : List GlobTok → List Char → Bool
  | [], ns => ns.isEmpty
  | .star :: ts, ns => ns.tails.any (fun t => matchTokens ts t)
  | .anyChar :: ts, ns =>
      match ns with
      | [] => false
      | _ :: ns2 => matchTokens ts ns2
  | .lit c :: ts, ns =>
      match ns with
      | [] => false
      | n :: ns2 => decide (c = n) && matchTokens ts ns2
  | .cls neg content :: ts, ns =>
      match ns with
      | [] => false
      | n :: ns2 => (memBracket content n != neg) && matchTokens ts ns2

/-- Embedding of `_path_utils.pattern_match(name, pattern)`: compile
the glob to tokens, then match the whole name. -/
def pattern_match (name pattern : String) : Bool :=
  matchTokens (translate pattern.toList) name.toList

example : pattern_match "main.py" "*.py" = true := by decide
example : pattern_match "main.pyc" "*.py" = false := by decide
example : pattern_match "py" "*.py" = false := by decide
example : pattern_match "x.a" "*" = true := by decide
example : pattern_match "ab" "a?" = true := by decide
example : pattern_match "b" "[ac]" = false := by decide
example : pattern_match "b" "[a-c]" = true := by decide
example : pattern_match "b" "[!a-c]" = false := by decide
example : pattern_match "x" "[" = false := by decide
example : pattern_match "[" "[" = true := by decide

/-! ## The pattern tree: `FileStructureRequirement` (requirements.py)

One node of the declarative structure pattern: an optional glob for the
directory name, required and optional file globs, and required and
optional sub-patterns. -/

inductive FileStructureRequirement where
  | mk (directory_name : Option String) (files : List String)
       (directories : List FileStructureRequirement)
       (optional_files : List String)
       (optional_directories : List FileStructureRequirement)

abbrev FSR := FileStructureRequirement

namespace FileStructureRequirement

def directory_name : FSR → Option String
  | .mk n _ _ _ _ => n

def files : FSR → List String
  | .mk _ f _ _ _ => f

def directories : FSR → List FSR
  | .mk _ _ d _ _ => d

def optional_files : FSR → List String
  | .mk _ _ _ o _ => o

def optional_directories : FSR → List FSR
  | .mk _ _ _ _ p => p

mutual
def beqF : FSR → FSR → Bool
  | .mk n1 f1 d1 o1 p1, .mk n2 f2 d2 o2 p2 =>
    n1 == n2 && f1 == f2 && beqL d1 d2 && o1 == o2 && beqL p1 p2
def beqL : List FSR → List FSR → Bool
  | [], [] => true
  | a :: as, b :: bs => beqF a b && beqL as bs
  | _, _ => false
end

mutual
theorem beqF_iff : ∀ a b, beqF a b = true ↔ a = b
  | .mk n1 f1 d1 o1 p1, .mk n2 f2 d2 o2 p2 => by
    simp only [beqF, Bool.and_eq_true, beq_iff_eq, FileStructureRequirement.mk.injEq]
    rw [beqL_iff d1 d2, beqL_iff p1 p2]
    tauto
theorem beqL_iff : ∀ as bs, beqL as bs = true ↔ as = bs
  | [], [] => by simp [beqL]
  | [], _ :: _ => by simp [beqL]
  | _ :: _, [] => by simp [beqL]
  | a :: as, b :: bs => by
    simp only [beqL, Bool.and_eq_true, List.cons.injEq]
    rw [beqF_iff a b, beqL_iff as bs]
end

instance : DecidableEq FSR := fun a b => decidable_of_iff _ (beqF_iff a b)

/-- The default-constructed empty node, `FileStructureRequirement()`. -/
def empty : FSR := .mk none [] [] [] []

/-! ### Builder methods (requirements.py lines 85-123)

In the pure embedding, values have copy semantics, so the `deepcopy`
performed by `add_directory` is the identity on the denoted tree; the
aliasing behaviour of `deepcopy` itself is modelled separately on an
explicit heap (see the `Heap` namespace). -/

def set_name (self : FSR) (name : Option String) : FSR :=
  .mk name self.files self.directories self.optional_files self.optional_directories

def add_file (self : FSR) (file : String) (required : Bool) : FSR :=
  if required then
    .mk self.directory_name (self.files ++ [file]) self.directories
      self.optional_files self.optional_directories
  else
    .mk self.directory_name self.files self.directories
      (self.optional_files ++ [file]) self.optional_directories

def add_files (self : FSR) (fl : List String) (required : Bool) : FSR :=
  fl.foldl (fun acc f => acc.add_file f required) self

/-- Builder method `add_directory`: stores a deep copy of its
argument; on pure values the copy coincides with the value. -/
def add_directory (self : FSR) (d : FSR) (required : Bool) : FSR :=
  if required then
    .mk self.directory_name self.files (self.directories ++ [d])
      self.optional_files self.optional_directories
  else
    .mk self.directory_name self.files self.directories
      self.optional_files (self.optional_directories ++ [d])

def add_directories (self : FSR) (ds : List FSR) (required : Bool) : FSR :=
  ds.foldl (fun acc d => acc.add_directory d required) self

/-- Property `all_files`: `list(set(files) | set(optional_files))`.
Python set union of two lists, modelled order-deterministically as
duplicate-free concatenation. -/
def all_files (self : FSR) : List String :=
  (self.files ++ self.optional_files).dedup

/-- Property `all_directories`: `list(set(directories) | set(optional_directories))`. -/
def all_directories (self : FSR) : List FSR :=
  (self.directories ++ self.optional_directories).dedup

end FileStructureRequirement

/-! ## Filesystem model

`scan`, `matches` and `copy` read and write a filesystem.  It is
modelled as a finite list of bindings from absolute paths (lists of
components) to entries; a directory listing (`iterdir`) is recovered
from the bindings whose path extends the directory by one component. -/

abbrev Path := List String

inductive Entry where
  | dir
  | file (content : String)
  deriving DecidableEq

abbrev FS := List (Path × Entry)

def isDirEntry : Entry → Bool
  | .dir => true
  | .file _ => false

/-- Immediate child names of directory `p` (directories if `wantDir`,
files otherwise), each listed once. -/
def childNames (fs : FS) (p : Path) (wantDir : Bool) : List String :=
  (fs.filterMap (fun e =>
    if e.1 ≠ [] ∧ e.1.dropLast = p ∧ isDirEntry e.2 = wantDir then e.1.getLast? else none)).dedup

def childDirNames (fs : FS) (p : Path) : List String :=
  childNames fs p true

def childFileNames (fs : FS) (p : Path) : List String :=
  childNames fs p false

def existsPath (fs : FS) (p : Path) : Bool :=
  fs.any (fun e => decide (e.1 = p))

def lookupPath (fs : FS) (p : Path) : Option Entry :=
  (fs.find? (fun e => decide (e.1 = p))).map (fun e => e.2)

/-- The final component of a path (`PurePath.name`). -/
def basename (p : Path) : String :=
  p.getLastD ""

/-- Embedding of `PurePath.match(pattern)` for a separator-free pattern: glob match
against the final path component. -/
def pathMatch (p : Path) (pattern : String) : Bool :=
  pattern_match (basename p) pattern

/-- The `(dirpath, dirnames, filenames)` triple of a directory, as
produced by `next(path.walk())` / `iterdir(path)`. -/
def fsTriple (fs : FS) (p : Path) : Path × List String × List String :=
  (p, childDirNames fs p, childFileNames fs p)

/-! ## The structural matcher (`FileStructureRequirement.matches`)

`matches` takes the walk triple of the directory under test; for
required sub-patterns it re-reads the filesystem
(`next((dirpath / directory).walk())`) to build the subdirectory
triples.  The source returns `False` as soon as the directory name
fails, a required file pattern is matched by no filename, or a
required sub-pattern is matched by no subdirectory; the helper
functions below are those three loops. -/

mutual
def FileStructureRequirement.matches : FSR → FS → Path × List String × List String → Bool
  | .mk dname fls dirs _ _, fs, (dirpath, dirnames, filenames) =>
    -- `if self.directory_name and not dirpath.match(...)`: Python
    -- truthiness, so an empty-string name imposes no constraint.
    (match dname with
     | none => true
     | some pat => decide (pat = "") || pathMatch dirpath pat) &&
    -- required file loop: fails unless every pattern is matched by
    -- at least one filename
    fls.all (fun pat => filenames.any (fun f => pattern_match f pat)) &&
    FileStructureRequirement.matchesBranches dirs fs dirpath dirnames

/-- The required sub-pattern loop of `matches`: every branch must be
matched by at least one subdirectory, whose own triple is re-read from
the filesystem (`next((dirpath / directory).walk())`). -/
def FileStructureRequirement.matchesBranches : List FSR → FS → Path → List String → Bool
  | [], _, _, _ => true
  | b :: bs, fs, dirpath, dirnames =>
    dirnames.any (fun d => FileStructureRequirement.matches b fs (fsTriple fs (dirpath ++ [d]))) &&
      FileStructureRequirement.matchesBranches bs fs dirpath dirnames
end

theorem FileStructureRequirement.matchesBranches_eq_all (bs : List FSR) (fs : FS)
    (dirpath : Path) (dirnames : List String) :
    FileStructureRequirement.matchesBranches bs fs dirpath dirnames =
      bs.all (fun b => dirnames.any (fun d =>
        FileStructureRequirement.matches b fs (fsTriple fs (dirpath ++ [d])))) := by
  induction bs with
  | nil => simp [FileStructureRequirement.matchesBranches]
  | cons b bs2 ih =>
    simp [FileStructureRequirement.matchesBranches, ih]

/-! ## Declarative (JSON) form (requirements.py lines 49-83)

`to_json` serialises a node to a JSON object with fields
`directory_name`, `files`, `optional_files`, `directories`,
`optional_directories`, where each sub-pattern is itself serialised
(the source embeds each one as a nested JSON document);
`from_json` parses that shape back through the builder methods.  The
embedding works on the parsed shape directly — JSON text encoding and
decoding (`json.dumps` / `json.loads`) are mechanics outside the core
(spec section 1). -/

inductive PatternSpec where
  | mk (directory_name : Option String) (files : List String)
       (optional_files : List String)
       (directories : List PatternSpec)
       (optional_directories : List PatternSpec)

mutual
def FileStructureRequirement.from_json : PatternSpec → FSR
  | .mk name fls ofls dirs odirs =>
    (((((FileStructureRequirement.empty).set_name name).add_files fls true).add_files
          ofls false).add_directories (FileStructureRequirement.fromJsonList dirs)
        true).add_directories (FileStructureRequirement.fromJsonList odirs) false

def FileStructureRequirement.fromJsonList : List PatternSpec → List FSR
  | [] => []
  | sp :: sps =>
    FileStructureRequirement.from_json sp :: FileStructureRequirement.fromJsonList sps
end

mutual
def FileStructureRequirement.to_json : FSR → PatternSpec
  | .mk n f d of od =>
    .mk n f of (FileStructureRequirement.toJsonList d) (FileStructureRequirement.toJsonList od)

def FileStructureRequirement.toJsonList : List FSR → List PatternSpec
  | [] => []
  | p :: ps => FileStructureRequirement.to_json p :: FileStructureRequirement.toJsonList ps
end

namespace FileStructureRequirement

theorem add_files_true_spec : ∀ (fl : List String) (n : Option String) (f : List String)
    (d : List FSR) (of : List String) (od : List FSR),
    add_files (.mk n f d of od) fl true = .mk n (f ++ fl) d of od := by
  intro fl
  induction fl with
  | nil => intro n f d of od; simp [add_files]
  | cons x xs ih =>
    intro n f d of od
    have : add_files (FileStructureRequirement.mk n f d of od) (x :: xs) true =
        add_files (add_file (.mk n f d of od) x true) xs true := rfl
    rw [this]
    simp [add_file, directory_name, files, directories, optional_files, optional_directories,
      ih]

theorem add_files_false_spec : ∀ (fl : List String) (n : Option String) (f : List String)
    (d : List FSR) (of : List String) (od : List FSR),
    add_files (.mk n f d of od) fl false = .mk n f d (of ++ fl) od := by
  intro fl
  induction fl with
  | nil => intro n f d of od; simp [add_files]
  | cons x xs ih =>
    intro n f d of od
    have : add_files (FileStructureRequirement.mk n f d of od) (x :: xs) false =
        add_files (add_file (.mk n f d of od) x false) xs false := rfl
    rw [this]
    simp [add_file, directory_name, files, directories, optional_files, optional_directories,
      ih]

theorem add_directories_true_spec : ∀ (ds : List FSR) (n : Option String) (f : List String)
    (d : List FSR) (of : List String) (od : List FSR),
    add_directories (.mk n f d of od) ds true = .mk n f (d ++ ds) of od := by
  intro ds
  induction ds with
  | nil => intro n f d of od; simp [add_directories]
  | cons x xs ih =>
    intro n f d of od
    have : add_directories (FileStructureRequirement.mk n f d of od) (x :: xs) true =
        add_directories (add_directory (.mk n f d of od) x true) xs true := rfl
    rw [this]
    simp [add_directory, directory_name, files, directories, optional_files,
      optional_directories, ih]

theorem add_directories_false_spec : ∀ (ds : List FSR) (n : Option String) (f : List String)
    (d : List FSR) (of : List String) (od : List FSR),
    add_directories (.mk n f d of od) ds false = .mk n f d of (od ++ ds) := by
  intro ds
  induction ds with
  | nil => intro n f d of od; simp [add_directories]
  | cons x xs ih =>
    intro n f d of od
    have : add_directories (FileStructureRequirement.mk n f d of od) (x :: xs) false =
        add_directories (add_directory (.mk n f d of od) x false) xs false := rfl
    rw [this]
    simp [add_directory, directory_name, files, directories, optional_files,
      optional_directories, ih]

theorem from_json_eq (name : Option String) (fls ofls : List String)
    (dirs odirs : List PatternSpec) :
    from_json (.mk name fls ofls dirs odirs) =
      .mk name fls (fromJsonList dirs) ofls (fromJsonList odirs) := by
  show (((((empty).set_name name).add_files fls true).add_files ofls false).add_directories
      (fromJsonList dirs) true).add_directories (fromJsonList odirs) false =
    .mk name fls (fromJsonList dirs) ofls (fromJsonList odirs)
  simp [empty, set_name, directory_name, files, directories, optional_files,
    optional_directories, add_files_true_spec, add_files_false_spec,
    add_directories_true_spec, add_directories_false_spec]

end FileStructureRequirement

mutual
theorem FileStructureRequirement.from_json_to_json : ∀ p : FSR,
    FileStructureRequirement.from_json (FileStructureRequirement.to_json p) = p
  | .mk n f d of od => by
    show FileStructureRequirement.from_json
        (.mk n f of (FileStructureRequirement.toJsonList d)
          (FileStructureRequirement.toJsonList od)) = FileStructureRequirement.mk n f d of od
    rw [FileStructureRequirement.from_json_eq]
    rw [FileStructureRequirement.fromJsonList_toJsonList d,
      FileStructureRequirement.fromJsonList_toJsonList od]

theorem FileStructureRequirement.fromJsonList_toJsonList : ∀ l : List FSR,
    FileStructureRequirement.fromJsonList (FileStructureRequirement.toJsonList l) = l
  | [] => rfl
  | p :: ps => by
    show FileStructureRequirement.from_json (FileStructureRequirement.to_json p) ::
        FileStructureRequirement.fromJsonList (FileStructureRequirement.toJsonList ps) =
      p :: ps
    rw [FileStructureRequirement.from_json_to_json p,
      FileStructureRequirement.fromJsonList_toJsonList ps]
end

/-! ## Copy engine (requirements.py lines 196-234, lib.py shuffle)

`copy` is embedded with a fuel argument that drives the recursion into
sub-patterns; since every recursive call descends into a structurally
smaller sub-pattern, `fuel = size self` always suffices and `copy`
fixes the fuel that way (see `copyFuel_fuel_irrelevant`). -/

/-- Embedding of `destination.mkdir(parents=True, exist_ok=exist_ok)`: missing
ancestors are created; if the destination exists, `exist_ok = true`
succeeds only when it is a directory, otherwise the call fails with
`FileExistsError`. -/
def mkdir (fs : FS) (p : Path) (exist_ok : Bool) : Except Unit FS :=
  if existsPath fs p then
    if exist_ok then
      match lookupPath fs p with
      | some .dir => .ok fs
      | _ => .error ()
    else .error ()
  else
    .ok (fs ++
      (((List.range p.length).map (fun i => p.take (i + 1))).filter
          (fun q => !existsPath fs q)).map (fun q => (q, Entry.dir)))

/-- Embedding of `shutil.copy2(file, destination / file.name)`: write the source
file content at the destination path, replacing any existing entry. -/
def copy2 (fs : FS) (src dst : Path) : FS :=
  match lookupPath fs src with
  | some (.file c) => (fs.filter (fun e => !decide (e.1 = dst))) ++ [(dst, .file c)]
  | _ => fs

mutual
/-- Size of a pattern tree (computable measure used as copy fuel). -/
def FileStructureRequirement.size : FSR → Nat
  | .mk _ _ d _ od =>
    1 + FileStructureRequirement.sizeList d + FileStructureRequirement.sizeList od

def FileStructureRequirement.sizeList : List FSR → Nat
  | [] => 0
  | p :: ps => FileStructureRequirement.size p + FileStructureRequirement.sizeList ps
end

theorem size_pos : ∀ t : FSR, 1 ≤ FileStructureRequirement.size t
  | .mk n f d of od => by
    simp only [FileStructureRequirement.size]
    omega

theorem size_le_sizeList : ∀ (ts : List FSR) (t : FSR), t ∈ ts →
    FileStructureRequirement.size t ≤ FileStructureRequirement.sizeList ts := by
  intro ts
  induction ts with
  | nil => intro t ht; simp at ht
  | cons x xs ih =>
    intro t ht
    have hx : 0 ≤ FileStructureRequirement.sizeList xs := Nat.zero_le _
    rcases List.mem_cons.mp ht with h | h
    · subst h
      simp [FileStructureRequirement.sizeList]
    · have := ih t h
      have hs := size_pos x
      simp only [FileStructureRequirement.sizeList]
      omega

/-- The copy engine `FileStructureRequirement.copy`, fuel-driven.  Per level:
create the destination (unless dryrun), copy every direct file whose
name matches some pattern in `all_files`, then for every immediate
subdirectory try every branch in `all_directories` and recurse for
each branch whose `matches` succeeds (the source has no break: all
matching branches fire, in order, against the then-current
filesystem). -/
def FileStructureRequirement.copyFuel : Nat → FSR → Path → Path → Bool → Bool → FS →
    Except Unit FS
  | 0, _, _, _, _, _, fs => .ok fs
  | fuel + 1, self, source, destination, overwrite, dryrun, fs =>
    match (if dryrun then Except.ok fs else mkdir fs destination overwrite) with
    | .error e => .error e
    | .ok fs1 =>
      let fs2 := (childFileNames fs1 source).foldl
        (fun acc name =>
          if (self.all_files).any (fun pat => pattern_match name pat) then
            (if dryrun then acc else copy2 acc (source ++ [name]) (destination ++ [name]))
          else acc) fs1
      (childDirNames fs2 source).foldlM
        (fun acc d =>
          (self.all_directories).foldlM
            (fun acc2 b =>
              if b.matches acc2 (fsTriple acc2 (source ++ [d])) then
                FileStructureRequirement.copyFuel fuel b (source ++ [d])
                  (destination ++ [d]) overwrite dryrun acc2
              else Except.ok acc2)
            acc)
        fs2

def FileStructureRequirement.copy (self : FSR) (source destination : Path)
    (overwrite dryrun : Bool) (fs : FS) : Except Unit FS :=
  FileStructureRequirement.copyFuel (FileStructureRequirement.size self) self source
    destination overwrite dryrun fs

theorem foldlM_congr {ε α β : Type} : ∀ (l : List α) (f g : β → α → Except ε β) (acc : β),
    (∀ a x, x ∈ l → f a x = g a x) → l.foldlM f acc = l.foldlM g acc := by
  intro l
  induction l with
  | nil => intro f g acc h; rfl
  | cons x xs ih =>
    intro f g acc h
    rw [List.foldlM_cons, List.foldlM_cons, h acc x (by simp)]
    cases hg : g acc x with
    | error e => rfl
    | ok acc2 =>
      show (Except.ok acc2).bind _ = (Except.ok acc2).bind _
      show xs.foldlM f acc2 = xs.foldlM g acc2
      exact ih f g acc2 (fun a y hy => h a y (by simp [hy]))

theorem size_lt_of_mem_all_directories (self b : FSR)
    (h : b ∈ self.all_directories) :
    FileStructureRequirement.size b < FileStructureRequirement.size self := by
  obtain ⟨n, f, d, of, od⟩ := self
  have h2 : b ∈ d ++ od := List.mem_dedup.mp h
  rcases List.mem_append.mp h2 with h3 | h3
  · have := size_le_sizeList d b h3
    have h4 : 0 ≤ FileStructureRequirement.sizeList od := Nat.zero_le _
    simp only [FileStructureRequirement.size]
    omega
  · have := size_le_sizeList od b h3
    have h4 : 0 ≤ FileStructureRequirement.sizeList d := Nat.zero_le _
    simp only [FileStructureRequirement.size]
    omega

/-- The fuel passed to `copyFuel` is irrelevant as soon as it bounds
the size of the pattern: `copy` fixing `fuel = size self` loses
nothing. -/
theorem copyFuel_fuel_irrelevant :
    ∀ (fuel fuel2 : Nat) (self : FSR) (src dst : Path) (ow dr : Bool) (fs : FS),
      FileStructureRequirement.size self ≤ fuel →
      FileStructureRequirement.size self ≤ fuel2 →
      FileStructureRequirement.copyFuel fuel self src dst ow dr fs =
        FileStructureRequirement.copyFuel fuel2 self src dst ow dr fs := by
  intro fuel
  induction fuel with
  | zero =>
    intro fuel2 self src dst ow dr fs h1 _
    have := size_pos self
    omega
  | succ f ih =>
    intro fuel2 self src dst ow dr fs h1 h2
    cases fuel2 with
    | zero =>
      have := size_pos self
      omega
    | succ f2 =>
      rw [FileStructureRequirement.copyFuel, FileStructureRequirement.copyFuel]
      cases hmk : (if dr then Except.ok fs else mkdir fs dst ow) with
      | error e => rfl
      | ok fs1 =>
        apply foldlM_congr
        intro acc d _
        apply foldlM_congr
        intro acc2 b hb
        have hlt := size_lt_of_mem_all_directories self b hb
        by_cases hm : b.matches acc2 (fsTriple acc2 (src ++ [d])) = true
        · simp only [hm, if_true]
          exact ih f2 b (src ++ [d]) (dst ++ [d]) ow dr acc2 (by omega) (by omega)
        · simp [hm]

/-- Record `lib.ShuffleInput`. -/
structure ShuffleInput where
  source : Path
  destination : Path
  pattern : FSR
  deriving DecidableEq

/-- Record `lib.ShuffleResult`. -/
structure ShuffleResult where
  source : Path
  destination : Path
  pattern : FSR
  deriving DecidableEq

/-- Record `lib.ScanResult`. -/
structure ScanResult where
  source : Path
  pattern : FSR
  deriving DecidableEq

/-- Embedding of `lib.shuffle` (serial mode): run `copy` for every input, catching
`FileExistsError` per input (log and skip), and return the successes
in order together with the final filesystem. -/
def shuffle (shuffle_def : List ShuffleInput) (overwrite dryrun : Bool) (fs : FS) :
    List ShuffleResult × FS :=
  shuffle_def.foldl
    (fun st i =>
      match i.pattern.copy i.source i.destination overwrite dryrun st.2 with
      | .ok fs2 => (st.1 ++ [⟨i.source, i.destination, i.pattern⟩], fs2)
      | .error _ => st)
    ([], fs)

/-- Embedding of `lib.shuffle_to`: derive each destination as
`destination / match.source.name` and shuffle. -/
def shuffle_to (matches2 : List ScanResult) (destination : Path)
    (overwrite dryrun : Bool) (fs : FS) : List ShuffleResult × FS :=
  shuffle
    (matches2.map (fun m => ⟨m.source, destination ++ [basename m.source], m.pattern⟩))
    overwrite dryrun fs

/-- Modelled from the spec: spec section 4.6 step 3 prescribes that for
each immediate subdirectory "the first sub-pattern that matches
determines the recursive copy target" — a first-match-only variant of
the copy recursion, used to compare the prescription against the
code. -/
def FileStructureRequirement.copySpecFirstFuel : Nat → FSR → Path → Path → Bool → Bool →
    FS → Except Unit FS
  | 0, _, _, _, _, _, fs => .ok fs
  | fuel + 1, self, source, destination, overwrite, dryrun, fs =>
    match (if dryrun then Except.ok fs else mkdir fs destination overwrite) with
    | .error e => .error e
    | .ok fs1 =>
      let fs2 := (childFileNames fs1 source).foldl
        (fun acc name =>
          if (self.all_files).any (fun pat => pattern_match name pat) then
            (if dryrun then acc else copy2 acc (source ++ [name]) (destination ++ [name]))
          else acc) fs1
      (childDirNames fs2 source).foldlM
        (fun acc d =>
          match (self.all_directories).find?
              (fun b => b.matches acc (fsTriple acc (source ++ [d]))) with
          | some b =>
            FileStructureRequirement.copySpecFirstFuel fuel b (source ++ [d])
              (destination ++ [d]) overwrite dryrun acc
          | none => Except.ok acc)
        fs2

/-- Modelled from the spec: first-match-only copy, wrapper fixing the
fuel like `copy` does. -/
def FileStructureRequirement.copySpecFirst (self : FSR) (source destination : Path)
    (overwrite dryrun : Bool) (fs : FS) : Except Unit FS :=
  FileStructureRequirement.copySpecFirstFuel (FileStructureRequirement.size self) self source
    destination overwrite dryrun fs

/-! ## Directory walker and scan/assess (src/src/pathvein: _path_utils.py, lib.py) -/

/-- Embedding of `_path_utils.iterdir(path)`: the listing of one directory, raising
`PermissionError` for unreadable directories (modelled by the `unread`
set; the `os.scandir` fallback re-raises on `path.iterdir()`). -/
def iterdirE (fs : FS) (unread : List Path) (p : Path) :
    Except Unit (Path × List String × List String) :=
  if p ∈ unread then .error () else .ok (fsTriple fs p)

/-- The stack loop of `_path_utils.walk`: pop the last stack entry
(`list.pop()`), list it with `iterdir`, yield its triple and push its
subdirectories; `PermissionError` is caught with a logged warning and
the loop continues (`except PermissionError: ... continue`).  The fuel
bounds the number of loop iterations; `fs.length + 1` suffices because
every pushed path is a distinct directory binding of `fs`. -/
def walkAux (fs : FS) (unread : List Path) :
    Nat → List Path → List (Path × List String × List String)
  | 0, _ => []
  | _, [] => []
  | fuel + 1, stack =>
    let path := stack.getLastD []
    let rest := stack.dropLast
    match iterdirE fs unread path with
    | .error _ => walkAux fs unread fuel rest
    | .ok t => t :: walkAux fs unread fuel (rest ++ (t.2.1).map (fun d => t.1 ++ [d]))

def walk (fs : FS) (unread : List Path) (source : Path) :
    List (Path × List String × List String) :=
  walkAux fs unread (fs.length + 1) [source]

/-- Embedding of `lib.scan`: walk the whole tree and test every pattern at every
visited directory; matches accumulate into a set. -/
def scan (fs : FS) (unread : List Path) (source : Path) (patterns : List FSR) :
    Finset ScanResult :=
  (walk fs unread source).foldl
    (fun acc t =>
      patterns.foldl
        (fun acc2 p => if p.matches fs t then insert (ScanResult.mk t.1 p) acc2 else acc2)
        acc)
    ∅

/-- Modelled from the spec: `FileStructurePattern.parents_of` is not in
the source tree (pattern.py is absent; only its callers are); spec
section 4.5 describes it as enumerating candidate roots by walking
upward from the file's parent through each ancestor, stopping at the
filesystem root. -/
def parents_of (file : Path) : List Path :=
  ((List.range (file.dropLast.length + 1)).reverse).map (fun i => file.dropLast.take i)

/-- Embedding of `lib.assess`, materialised: for each pattern, list each candidate
root with `iterdir` (whose `PermissionError` propagates — `assess` has
no handler) and keep the candidates that re-validate with `matches`. -/
def assess (fs : FS) (unread : List Path) (file : Path) (patterns : List FSR) :
    Except Unit (List ScanResult) :=
  patterns.foldlM
    (fun acc p =>
      (parents_of file).foldlM
        (fun acc2 root =>
          match iterdirE fs unread root with
          | .error e => Except.error e
          | .ok t =>
            if p.matches fs t then Except.ok (acc2 ++ [ScanResult.mk root p])
            else Except.ok acc2)
        acc)
    ([] : List ScanResult)

/-! ## Heap model of `add_directory` (requirements.py lines 85-100)

Python objects live on a heap and `add_directory` stores
`deepcopy(directory)`, not the passed reference.  To reason about
aliasing, the heap is modelled explicitly: a store of nodes whose
sub-pattern fields hold addresses; `deepcopy` materialises the denoted
tree at fresh addresses. -/

namespace Heap

/-- One Python `FileStructureRequirement` object: scalar fields plus
references (heap addresses) to its sub-pattern objects. -/
structure PNode where
  directory_name : Option String
  files : List String
  directories : List Nat
  optional_files : List String
  optional_directories : List Nat
  deriving DecidableEq

/-- The heap: an address is an index into the store; allocation
appends. -/
abbrev Store := List PNode

/-- The pattern tree denoted by the object at address `a`, following
references; fuel bounds the depth (on an acyclic store of `n` objects,
fuel `n` suffices). -/
def denote : Nat → Store → Nat → Option FSR
  | 0, _, _ => none
  | fuel + 1, s, a =>
    match s[a]? with
    | none => none
    | some nd =>
      match nd.directories.mapM (fun c => denote fuel s c),
        nd.optional_directories.mapM (fun c => denote fuel s c) with
      | some ds, some ods => some (.mk nd.directory_name nd.files ds nd.optional_files ods)
      | _, _ => none

mutual
/-- Allocate a pattern tree on the heap (children first); returns the
extended store and the address of the root.  This is the effect of
`deepcopy` on the denoted tree. -/
def alloc : Store → FSR → Store × Nat
  | s, .mk n f d of od =>
    let r1 := allocList s d
    let r2 := allocList r1.1 od
    (r2.1 ++ [⟨n, f, r1.2, of, r2.2⟩], r2.1.length)

def allocList : Store → List FSR → Store × List Nat
  | s, [] => (s, [])
  | s, t :: ts =>
    let r1 := alloc s t
    let r2 := allocList r1.1 ts
    (r2.1, r1.2 :: r2.2)
end

/-- Embedding of `copy.deepcopy(directory)`: read the object graph reachable from
`c` (acyclic on every store the builder produces) and rebuild it at
fresh addresses. -/
def deepcopy (s : Store) (c : Nat) : Store × Nat :=
  match denote s.length s c with
  | some t => alloc s t
  | none => (s, c)

/-- Heap-level `add_directory` for parent address `p` and child
address `c`: append the address of a deep copy of `c` to the chosen
list field of the node at `p`. -/
def add_directory (s : Store) (p c : Nat) (required : Bool) : Store :=
  let r := deepcopy s c
  match r.1[p]? with
  | none => r.1
  | some nd =>
    r.1.set p
      (if required then
        ⟨nd.directory_name, nd.files, nd.directories ++ [r.2], nd.optional_files,
          nd.optional_directories⟩
      else
        ⟨nd.directory_name, nd.files, nd.directories, nd.optional_files,
          nd.optional_directories ++ [r.2]⟩)

mutual
theorem alloc_spec : ∀ (t : FSR) (s : Store),
    (∃ ext, (alloc s t).1 = s ++ ext) ∧
      s.length ≤ (alloc s t).2 ∧ (alloc s t).2 + 1 = (alloc s t).1.length
  | .mk n f d of od, s => by
    obtain ⟨⟨e1, he1⟩, hl1, _⟩ := allocList_spec d s
    obtain ⟨⟨e2, he2⟩, hl2, _⟩ := allocList_spec od (allocList s d).1
    simp only [alloc]
    refine ⟨⟨e1 ++ e2 ++
      [⟨n, f, (allocList s d).2, of, (allocList (allocList s d).1 od).2⟩], ?_⟩, ?_, ?_⟩
    · rw [he2, he1]
      simp
    · rw [he2, he1]
      simp only [List.length_append]
      omega
    · simp

theorem allocList_spec : ∀ (ts : List FSR) (s : Store),
    (∃ ext, (allocList s ts).1 = s ++ ext) ∧
      s.length ≤ (allocList s ts).1.length ∧
      ∀ a ∈ (allocList s ts).2, s.length ≤ a ∧ a + 1 ≤ (allocList s ts).1.length
  | [], s => by
    refine ⟨⟨[], by simp [allocList]⟩, by simp [allocList], ?_⟩
    intro a ha
    simp [allocList] at ha
  | t :: ts, s => by
    obtain ⟨⟨e1, he1⟩, ha1, hl1⟩ := alloc_spec t s
    obtain ⟨⟨e2, he2⟩, hlen2, hmem2⟩ := allocList_spec ts (alloc s t).1
    constructor
    · refine ⟨e1 ++ e2, ?_⟩
      show (allocList (alloc s t).1 ts).1 = _
      rw [he2, he1]
      simp
    · constructor
      · show s.length ≤ (allocList (alloc s t).1 ts).1.length
        have : s.length ≤ (alloc s t).1.length := by rw [he1]; simp
        omega
      · intro a ha
        show s.length ≤ a ∧ a + 1 ≤ (allocList (alloc s t).1 ts).1.length
        have hsplit : a = (alloc s t).2 ∨ a ∈ (allocList (alloc s t).1 ts).2 := by
          simpa [allocList] using ha
        rcases hsplit with h | h
        · subst h
          have : (alloc s t).1.length ≤ (allocList (alloc s t).1 ts).1.length := hlen2
          omega
        · have := hmem2 a h
          have hs : s.length ≤ (alloc s t).1.length := by rw [he1]; simp
          omega
end

mutual
theorem denote_alloc : ∀ (t : FSR) (s u : Store) (fuel : Nat),
    FileStructureRequirement.size t ≤ fuel →
    (∀ x, s.length ≤ x → x + 1 ≤ (alloc s t).1.length → u[x]? = (alloc s t).1[x]?) →
    denote fuel u (alloc s t).2 = some t
  | .mk n f d of od, s, u, fuel, hfuel, hagree => by
    obtain ⟨⟨e1, he1⟩, hl1, _⟩ := allocList_spec d s
    obtain ⟨⟨e2, he2⟩, hl2, _⟩ := allocList_spec od (allocList s d).1
    simp only [alloc] at hagree ⊢
    have hsz : 1 + FileStructureRequirement.sizeList d +
        FileStructureRequirement.sizeList od ≤ fuel := by
      simpa [FileStructureRequirement.size] using hfuel
    cases fuel with
    | zero => omega
    | succ m =>
      have hruniv : u[(allocList (allocList s d).1 od).1.length]? =
          some (⟨n, f, (allocList s d).2, of, (allocList (allocList s d).1 od).2⟩ : PNode) := by
        rw [hagree _ (by omega) (by simp)]
        exact List.getElem?_concat_length _ _
      have hd : (allocList s d).2.mapM (fun c => denote m u c) = some d := by
        apply denoteList_alloc d s u m (by omega)
        intro x hx1 hx2
        rw [hagree x hx1 (by simp only [List.length_append]; omega)]
        have : ((allocList (allocList s d).1 od).1 ++
            [⟨n, f, (allocList s d).2, of, (allocList (allocList s d).1 od).2⟩])[x]? =
            (allocList (allocList s d).1 od).1[x]? :=
          List.getElem?_append_left (by omega)
        rw [this, he2]
        exact List.getElem?_append_left (by omega)
      have hod : (allocList (allocList s d).1 od).2.mapM (fun c => denote m u c) = some od := by
        apply denoteList_alloc od (allocList s d).1 u m (by omega)
        intro x hx1 hx2
        rw [hagree x (by omega) (by simp only [List.length_append]; omega)]
        exact List.getElem?_append_left (by omega)
      simp only [denote, hruniv, hd, hod]

theorem denoteList_alloc : ∀ (ts : List FSR) (s u : Store) (fuel : Nat),
    FileStructureRequirement.sizeList ts ≤ fuel →
    (∀ x, s.length ≤ x → x + 1 ≤ (allocList s ts).1.length → u[x]? = (allocList s ts).1[x]?) →
    (allocList s ts).2.mapM (fun c => denote fuel u c) = some ts
  | [], s, u, fuel, _, _ => by
    simp only [allocList]
    rfl
  | t :: ts, s, u, fuel, hfuel, hagree => by
    obtain ⟨⟨e1, he1⟩, ha1, hl1⟩ := alloc_spec t s
    obtain ⟨⟨e2, he2⟩, hlen2, _⟩ := allocList_spec ts (alloc s t).1
    simp only [allocList] at hagree ⊢
    have hsz : FileStructureRequirement.size t +
        FileStructureRequirement.sizeList ts ≤ fuel := by
      simpa [FileStructureRequirement.sizeList] using hfuel
    have hspos := size_pos t
    have hslen : s.length ≤ (alloc s t).1.length := by rw [he1]; simp
    have hhead : denote fuel u (alloc s t).2 = some t := by
      apply denote_alloc t s u fuel (by omega)
      intro x hx1 hx2
      rw [hagree x hx1 (by omega)]
      rw [he2]
      exact List.getElem?_append_left (by omega)
    have htail : (allocList (alloc s t).1 ts).2.mapM (fun c => denote fuel u c) = some ts := by
      apply denoteList_alloc ts (alloc s t).1 u fuel (by omega)
      intro x hx1 hx2
      exact hagree x (by omega) hx2
    simp only [List.mapM_cons, hhead, htail, Option.bind_some, Option.pure_def]
    rfl
end

end Heap

/-! ## Claim C9: glob matching is full-string over one component -/

theorem matchTokens_lit_iff : ∀ (cs ns : List Char),
    matchTokens (cs.map GlobTok.lit) ns = true ↔ ns = cs := by
  intro cs
  induction cs with
  | nil =>
    intro ns
    simp [matchTokens, List.isEmpty_iff]
  | cons c cs2 ih =>
    intro ns
    cases ns with
    | nil => simp [matchTokens]
    | cons n ns2 =>
      simp only [List.map_cons, matchTokens, Bool.and_eq_true, decide_eq_true_eq,
        ih ns2, List.cons.injEq]
      constructor
      · rintro ⟨h1, h2⟩
        exact ⟨h1.symm, h2⟩
      · rintro ⟨h1, h2⟩
        exact ⟨h1.symm, h2⟩

theorem translateAux_all_lit : ∀ (fuel : Nat) (p : List Char), p.length ≤ fuel →
    (∀ c ∈ p, ¬c = '*' ∧ ¬c = '?' ∧ ¬c = '[') →
    translateAux fuel p = p.map GlobTok.lit := by
  intro fuel
  induction fuel with
  | zero =>
    intro p h1 _
    cases p with
    | nil => simp [translateAux]
    | cons c cs => simp at h1
  | succ f ih =>
    intro p h1 h2
    cases p with
    | nil => simp [translateAux]
    | cons c cs =>
      obtain ⟨hs, hq, hb⟩ := h2 c (by simp)
      simp only [List.length_cons] at h1
      simp [translateAux, hs, hq, hb,
        ih cs (by omega) (fun x hx => h2 x (by simp [hx]))]

theorem toList_inj : ∀ a b : String, a.toList = b.toList → a = b := by
  intro a b h
  cases a with
  | mk da =>
    cases b with
    | mk db =>
      simp only [String.toList] at h
      rw [h]

theorem star_py_iff : ∀ ns : List Char,
    matchTokens (translate "*.py".toList) ns = true ↔
      ∃ stem, ns = stem ++ ".py".toList := by
  intro ns
  rw [show translate "*.py".toList = GlobTok.star :: (".py".toList.map GlobTok.lit) from rfl]
  show (ns.tails.any fun t => matchTokens (".py".toList.map GlobTok.lit) t) = true ↔ _
  rw [List.any_eq_true]
  constructor
  · rintro ⟨t, ht, hm⟩
    rw [matchTokens_lit_iff] at hm
    subst hm
    rw [List.mem_tails] at ht
    obtain ⟨stem, hstem⟩ := ht
    exact ⟨stem, hstem.symm⟩
  · rintro ⟨stem, rfl⟩
    refine ⟨".py".toList, ?_, ?_⟩
    · rw [List.mem_tails]
      exact ⟨stem, rfl⟩
    · rw [matchTokens_lit_iff]

/-- C9: glob matching is full-string over a single path component:
a pattern without glob metacharacters matches exactly itself (never a
proper substring), `"*.py"` matches exactly the names ending in
`".py"`, so it matches `"main.py"` and rejects `"main.pyc"` and
`"py"`. -/
theorem glob_full_string :
    (∀ (name pattern : String), (∀ c ∈ pattern.toList, ¬c = '*' ∧ ¬c = '?' ∧ ¬c = '[') →
      (pattern_match name pattern = true ↔ name = pattern)) ∧
    (∀ name : String, pattern_match name "*.py" = true ↔
      ∃ stem : List Char, name.toList = stem ++ ".py".toList) ∧
    pattern_match "main.py" "*.py" = true ∧
    pattern_match "main.pyc" "*.py" = false ∧
    pattern_match "py" "*.py" = false := by
  refine ⟨?_, ?_, by decide, by decide, by decide⟩
  · intro name pattern h
    unfold pattern_match translate
    rw [translateAux_all_lit pattern.toList.length pattern.toList (le_refl _) h]
    rw [matchTokens_lit_iff]
    constructor
    · exact toList_inj name pattern
    · intro h2
      rw [h2]
  · intro name
    exact star_py_iff name.toList

/-- C9 witness: the general clauses of `glob_full_string` applied at
concrete inputs. -/
theorem glob_full_string_witness :
    pattern_match "data" "data" = true ∧ pattern_match "main.py" "*.py" = true :=
  ⟨(glob_full_string.1 "data" "data" (by decide)).mpr rfl, glob_full_string.2.2.1⟩

/-! ## Claim C1: characterisation of `matches` -/

/-- C1 (amended): `matches` returns true iff (1) whenever
`directory_name` is set to a non-empty glob, the directory base name
satisfies it, (2) every required file pattern is matched by at least
one filename (the same file may satisfy several patterns), and (3)
every required sub-pattern is matched, recursively, by at least one
immediate subdirectory; a pattern with no constraints matches every
directory, and the optional fields never influence the result. -/
theorem matches_characterization :
    (∀ (self : FSR) (fs : FS) (dirpath : Path) (dirnames filenames : List String),
      FileStructureRequirement.matches self fs (dirpath, dirnames, filenames) = true ↔
        ((∀ pat, self.directory_name = some pat → ¬pat = "" → pathMatch dirpath pat = true) ∧
         (∀ pat ∈ self.files, ∃ f ∈ filenames, pattern_match f pat = true) ∧
         (∀ b ∈ self.directories, ∃ d ∈ dirnames,
           FileStructureRequirement.matches b fs (fsTriple fs (dirpath ++ [d])) = true))) ∧
    (∀ (n : Option String) (f : List String) (d : List FSR) (of1 of2 : List String)
       (od1 od2 : List FSR) (fs : FS) (t : Path × List String × List String),
      FileStructureRequirement.matches (.mk n f d of1 od1) fs t =
        FileStructureRequirement.matches (.mk n f d of2 od2) fs t) := by
  constructor
  · intro self fs dirpath dirnames filenames
    obtain ⟨n, f, d, of, od⟩ := self
    simp only [FileStructureRequirement.directory_name, FileStructureRequirement.files,
      FileStructureRequirement.directories]
    cases n with
    | none =>
      rw [FileStructureRequirement.matches.eq_1,
        FileStructureRequirement.matchesBranches_eq_all]
      simp [List.all_eq_true, List.any_eq_true, and_assoc]
    | some pat =>
      rw [FileStructureRequirement.matches.eq_2,
        FileStructureRequirement.matchesBranches_eq_all]
      by_cases hp : pat = ""
      · subst hp
        simp [List.all_eq_true, List.any_eq_true, and_assoc]
      · simp [hp, List.all_eq_true, List.any_eq_true, and_assoc]
  · intro n f d of1 of2 od1 od2 fs t
    obtain ⟨dirpath, dirnames, filenames⟩ := t
    cases n with
    | none => rw [FileStructureRequirement.matches.eq_1, FileStructureRequirement.matches.eq_1]
    | some pat => rw [FileStructureRequirement.matches.eq_2, FileStructureRequirement.matches.eq_2]

/-- C1 witness: the characterisation applied at a concrete directory. -/
theorem matches_characterization_witness :
    FileStructureRequirement.matches (.mk (some "d") ["*.txt"] [] [] []) []
      (["d"], [], ["a.txt"]) = true := by
  apply (matches_characterization.1 (.mk (some "d") ["*.txt"] [] [] []) [] ["d"] []
    ["a.txt"]).mpr
  refine ⟨?_, ?_, ?_⟩
  · intro pat hpat hne
    simp only [FileStructureRequirement.directory_name, Option.some.injEq] at hpat
    subst hpat
    decide
  · intro pat hp
    simp only [FileStructureRequirement.files, List.mem_singleton] at hp
    subst hp
    exact ⟨"a.txt", by simp, by decide⟩
  · intro b hb
    simp [FileStructureRequirement.directories] at hb

/-- C1 counterexample: with `directory_name` set to the empty string,
`matches` succeeds on a directory named `"foo"` although the glob
matcher rejects `"foo"` against the pattern `""` — Python truthiness
makes the empty-string name constraint a no-op, so the claim as stated
(any set `directory_name` must be satisfied) fails. -/
theorem matches_empty_name_counterexample :
    FileStructureRequirement.matches (.mk (some "") [] [] [] []) [] (["foo"], [], []) = true ∧
    pattern_match (basename ["foo"]) "" = false := by decide

/-! ## Claim C3: JSON round trip -/

/-- C3: deserialising the serialisation of any finite pattern yields a
structurally equal pattern, and serialising the parse of any valid
declarative form re-parses to a structurally equal pattern. -/
theorem json_round_trip :
    (∀ p : FSR,
      FileStructureRequirement.from_json (FileStructureRequirement.to_json p) = p) ∧
    (∀ t : PatternSpec,
      FileStructureRequirement.from_json
          (FileStructureRequirement.to_json (FileStructureRequirement.from_json t)) =
        FileStructureRequirement.from_json t) :=
  ⟨FileStructureRequirement.from_json_to_json,
    fun t => FileStructureRequirement.from_json_to_json (FileStructureRequirement.from_json t)⟩

/-! ## Claim C2: scan is union-distributive, idempotent, duplicate-free -/

theorem mem_scan_pattern_fold (fs : FS) (t : Path × List String × List String) :
    ∀ (ps : List FSR) (acc : Finset ScanResult) (x : ScanResult),
      (x ∈ ps.foldl (fun acc2 p =>
          if p.matches fs t then insert (ScanResult.mk t.1 p) acc2 else acc2) acc) ↔
        (x ∈ acc ∨ ∃ p ∈ ps, p.matches fs t = true ∧ x = ScanResult.mk t.1 p) := by
  intro ps
  induction ps with
  | nil =>
    intro acc x
    simp
  | cons p ps2 ih =>
    intro acc x
    simp only [List.foldl_cons]
    rw [ih]
    by_cases h : p.matches fs t = true
    · simp only [h, if_true, Finset.mem_insert, List.mem_cons]
      constructor
      · rintro (⟨h2 | h2⟩ | ⟨q, hq, hm, hx⟩)
        · exact Or.inr ⟨p, Or.inl rfl, h, h2⟩
        · exact Or.inl h2
        · exact Or.inr ⟨q, Or.inr hq, hm, hx⟩
      · rintro (h2 | ⟨q, hq | hq, hm, hx⟩)
        · exact Or.inl (Or.inr h2)
        · subst hq; exact Or.inl (Or.inl hx)
        · exact Or.inr ⟨q, hq, hm, hx⟩
    · simp only [h, if_false, List.mem_cons]
      constructor
      · rintro (h2 | ⟨q, hq, hm, hx⟩)
        · exact Or.inl h2
        · exact Or.inr ⟨q, Or.inr hq, hm, hx⟩
      · rintro (h2 | ⟨q, hq | hq, hm, hx⟩)
        · exact Or.inl h2
        · subst hq; exact absurd hm h
        · exact Or.inr ⟨q, hq, hm, hx⟩

theorem mem_scan_walk_fold (fs : FS) (ps : List FSR) :
    ∀ (ts : List (Path × List String × List String)) (acc : Finset ScanResult)
      (x : ScanResult),
      (x ∈ ts.foldl (fun acc t => ps.foldl (fun acc2 p =>
          if p.matches fs t then insert (ScanResult.mk t.1 p) acc2 else acc2) acc) acc) ↔
        (x ∈ acc ∨ ∃ t ∈ ts, ∃ p ∈ ps, p.matches fs t = true ∧ x = ScanResult.mk t.1 p) := by
  intro ts
  induction ts with
  | nil =>
    intro acc x
    simp
  | cons t ts2 ih =>
    intro acc x
    simp only [List.foldl_cons]
    rw [ih, mem_scan_pattern_fold]
    simp only [List.mem_cons]
    constructor
    · rintro (⟨h2 | ⟨p, hp, hm, hx⟩⟩ | ⟨u, hu, p, hp, hm, hx⟩)
      · exact Or.inl h2
      · exact Or.inr ⟨t, Or.inl rfl, p, hp, hm, hx⟩
      · exact Or.inr ⟨u, Or.inr hu, p, hp, hm, hx⟩
    · rintro (h2 | ⟨u, hu | hu, p, hp, hm, hx⟩)
      · exact Or.inl (Or.inl h2)
      · subst hu; exact Or.inl (Or.inr ⟨p, hp, hm, hx⟩)
      · exact Or.inr ⟨u, hu, p, hp, hm, hx⟩

theorem mem_scan (fs : FS) (unread : List Path) (root : Path) (ps : List FSR)
    (x : ScanResult) :
    x ∈ scan fs unread root ps ↔
      ∃ t ∈ walk fs unread root, ∃ p ∈ ps,
        p.matches fs t = true ∧ x = ScanResult.mk t.1 p := by
  unfold scan
  rw [mem_scan_walk_fold]
  simp

/-- C2: on an unchanged filesystem, `scan` over two patterns is the
union of the single-pattern scans, re-running the same scan yields the
same set, and duplicate patterns in the input do not duplicate output
entries. -/
theorem scan_union_idem_dedup :
    ∀ (fs : FS) (unread : List Path) (root : Path) (p1 p2 : FSR),
      scan fs unread root [p1, p2] = scan fs unread root [p1] ∪ scan fs unread root [p2] ∧
      scan fs unread root [p1] = scan fs unread root [p1] ∧
      scan fs unread root [p1, p1] = scan fs unread root [p1] := by
  intro fs unread root p1 p2
  refine ⟨?_, rfl, ?_⟩
  · ext x
    rw [Finset.mem_union, mem_scan, mem_scan, mem_scan]
    constructor
    · rintro ⟨t, ht, p, hp, hm, hx⟩
      simp only [List.mem_cons, List.not_mem_nil, or_false] at hp
      rcases hp with hp | hp
      · exact Or.inl ⟨t, ht, p, by simp [hp], hm, hx⟩
      · exact Or.inr ⟨t, ht, p, by simp [hp], hm, hx⟩
    · rintro (⟨t, ht, p, hp, hm, hx⟩ | ⟨t, ht, p, hp, hm, hx⟩)
      · simp only [List.mem_singleton] at hp
        exact ⟨t, ht, p, by simp [hp], hm, hx⟩
      · simp only [List.mem_singleton] at hp
        exact ⟨t, ht, p, by simp [hp], hm, hx⟩
  · ext x
    rw [mem_scan, mem_scan]
    constructor
    · rintro ⟨t, ht, p, hp, hm, hx⟩
      simp only [List.mem_cons, List.not_mem_nil, or_false, or_self] at hp
      exact ⟨t, ht, p, by simp [hp], hm, hx⟩
    · rintro ⟨t, ht, p, hp, hm, hx⟩
      simp only [List.mem_singleton] at hp
      exact ⟨t, ht, p, by simp [hp], hm, hx⟩

/-! ## Claim C4: `add_directory` deep-copies, never aliases -/

theorem denote_some_lt (fuel : Nat) (s : Heap.Store) (c : Nat) (t : FSR)
    (h : Heap.denote fuel s c = some t) : c < s.length := by
  cases fuel with
  | zero => simp [Heap.denote] at h
  | succ m =>
    by_contra h2
    rw [Heap.denote] at h
    rw [List.getElem?_eq_none (by omega)] at h
    simp at h

/-- C4: after `parent.add_directory(child)` on the heap, the stored
sub-pattern reference is a fresh address — never the caller's
reference, even when the child is the parent itself — the parent node
gains exactly that reference, and overwriting any pre-existing object
(in particular the child, or the parent) afterwards leaves the stored
copy denoting the same finite tree, so the stored pattern stays an
independent finite tree regardless of aliasing in the caller's
input. -/
theorem add_directory_no_aliasing :
    ∀ (s : Heap.Store) (p c : Nat) (t : FSR) (nd : Heap.PNode),
      Heap.denote s.length s c = some t →
      s[p]? = some nd →
      ((Heap.alloc s t).2 ≠ c ∧ s.length ≤ (Heap.alloc s t).2 ∧
       (Heap.add_directory s p c true)[p]? =
         some ⟨nd.directory_name, nd.files, nd.directories ++ [(Heap.alloc s t).2],
           nd.optional_files, nd.optional_directories⟩ ∧
       (∀ (a : Nat) (rep : Heap.PNode), a < s.length →
         Heap.denote (FileStructureRequirement.size t)
           ((Heap.add_directory s p c true).set a rep) (Heap.alloc s t).2 = some t)) := by
  intro s p c t nd hden hp
  obtain ⟨⟨ext, hext⟩, hge, hlen⟩ := Heap.alloc_spec t s
  have hplt : p < s.length := by
    by_contra h2
    rw [List.getElem?_eq_none (by omega)] at hp
    simp at hp
  have hclt : c < s.length := denote_some_lt s.length s c t hden
  have hdc : Heap.deepcopy s c = Heap.alloc s t := by
    unfold Heap.deepcopy
    rw [hden]
  have store2p : (Heap.alloc s t).1[p]? = some nd := by
    rw [hext, List.getElem?_append_left hplt]
    exact hp
  have hadd : Heap.add_directory s p c true =
      (Heap.alloc s t).1.set p ⟨nd.directory_name, nd.files,
        nd.directories ++ [(Heap.alloc s t).2], nd.optional_files,
        nd.optional_directories⟩ := by
    unfold Heap.add_directory
    rw [hdc]
    simp [store2p]
  have hplt2 : p < (Heap.alloc s t).1.length := by
    rw [hext]
    simp only [List.length_append]
    omega
  refine ⟨by omega, hge, ?_, ?_⟩
  · rw [hadd]
    exact List.getElem?_set_self hplt2
  · intro a rep ha
    apply Heap.denote_alloc t s _ (FileStructureRequirement.size t) (le_refl _)
    intro x hx1 hx2
    rw [hadd]
    rw [List.getElem?_set_ne (by omega), List.getElem?_set_ne (by omega)]

/-- C4 witness: a store holding one pattern object; appending the
object to itself (`requirement.add_directory(requirement)`) stores a
fresh copy, and mutating the original object afterwards (as
`requirement.set_name("x")` would) leaves the stored copy denoting the
original empty pattern. -/
theorem add_directory_no_aliasing_witness :
    (Heap.alloc [⟨none, [], [], [], []⟩] FileStructureRequirement.empty).2 ≠ 0 ∧
    Heap.denote 1
      ((Heap.add_directory [⟨none, [], [], [], []⟩] 0 0 true).set 0
        ⟨some "x", [], [], [], []⟩)
      (Heap.alloc [⟨none, [], [], [], []⟩] FileStructureRequirement.empty).2 =
      some FileStructureRequirement.empty := by
  have h := add_directory_no_aliasing [⟨none, [], [], [], []⟩] 0 0
    FileStructureRequirement.empty ⟨none, [], [], [], []⟩ (by decide) (by decide)
  exact ⟨h.1, h.2.2.2 0 ⟨some "x", [], [], [], []⟩ (by decide)⟩

/-! ## Claims C8/C10/C5/C6: the copy engine -/

instance {ε α : Type} [DecidableEq ε] [DecidableEq α] : DecidableEq (Except ε α) :=
  fun a b =>
    match a, b with
    | .ok x, .ok y => decidable_of_iff (x = y) (by simp)
    | .error x, .error y => decidable_of_iff (x = y) (by simp)
    | .ok _, .error _ => isFalse (by simp)
    | .error _, .ok _ => isFalse (by simp)

theorem foldl_id : ∀ (l : List α) (acc : β), l.foldl (fun a _ => a) acc = acc := by
  intro l
  induction l with
  | nil => intro acc; rfl
  | cons x xs ih => intro acc; simp [List.foldl_cons, ih]

theorem foldlM_ok_id {ε α β : Type} : ∀ (l : List α) (f : β → α → Except ε β) (acc : β),
    (∀ a x, x ∈ l → f a x = .ok a) → l.foldlM f acc = .ok acc := by
  intro l
  induction l with
  | nil => intro f acc h; rfl
  | cons x xs ih =>
    intro f acc h
    rw [List.foldlM_cons, h acc x (by simp)]
    show xs.foldlM f acc = .ok acc
    exact ih f acc (fun a y hy => h a y (by simp [hy]))

theorem copyFuel_dryrun : ∀ (fuel : Nat) (self : FSR) (src dst : Path) (ow : Bool) (fs : FS),
    FileStructureRequirement.copyFuel fuel self src dst ow true fs = .ok fs := by
  intro fuel
  induction fuel with
  | zero => intro self src dst ow fs; rfl
  | succ f ih =>
    intro self src dst ow fs
    simp only [FileStructureRequirement.copyFuel, if_true, ite_self]
    rw [foldl_id]
    apply foldlM_ok_id
    intro acc d _
    apply foldlM_ok_id
    intro acc2 b _
    by_cases h : b.matches acc2 (fsTriple acc2 (src ++ [d])) = true
    · simp [h, ih]
    · simp [h]

/-- C8: with `dryrun = true`, `copy` performs no filesystem writes —
it returns the filesystem unchanged — and consequently `shuffle` and
`shuffle_to` leave the filesystem unchanged. -/
theorem copy_dryrun_no_writes :
    (∀ (self : FSR) (src dst : Path) (ow : Bool) (fs : FS),
      FileStructureRequirement.copy self src dst ow true fs = .ok fs) ∧
    (∀ (inputs : List ShuffleInput) (ow : Bool) (fs : FS),
      (shuffle inputs ow true fs).2 = fs) ∧
    (∀ (ms : List ScanResult) (dst : Path) (ow : Bool) (fs : FS),
      (shuffle_to ms dst ow true fs).2 = fs) := by
  have hc : ∀ (self : FSR) (src dst : Path) (ow : Bool) (fs : FS),
      FileStructureRequirement.copy self src dst ow true fs = .ok fs := by
    intro self src dst ow fs
    exact copyFuel_dryrun _ self src dst ow fs
  have hsh : ∀ (inputs : List ShuffleInput) (ow : Bool) (st : List ShuffleResult × FS),
      (inputs.foldl (fun st i =>
        match i.pattern.copy i.source i.destination ow true st.2 with
        | .ok fs2 => (st.1 ++ [⟨i.source, i.destination, i.pattern⟩], fs2)
        | .error _ => st) st) =
      (st.1 ++ inputs.map (fun i => ShuffleResult.mk i.source i.destination i.pattern), st.2) := by
    intro inputs
    induction inputs with
    | nil => intro ow st; simp
    | cons i is ih =>
      intro ow st
      rw [List.foldl_cons]
      have hstep : (match i.pattern.copy i.source i.destination ow true st.2 with
          | .ok fs2 => (st.1 ++ [⟨i.source, i.destination, i.pattern⟩], fs2)
          | .error _ => st) =
          (st.1 ++ [ShuffleResult.mk i.source i.destination i.pattern], st.2) := by
        rw [hc]
      rw [hstep, ih]
      simp
  refine ⟨hc, ?_, ?_⟩
  · intro inputs ow fs
    show (inputs.foldl _ ([], fs)).2 = fs
    rw [hsh inputs ow ([], fs)]
  · intro ms dst ow fs
    show (List.foldl _ ([], fs) _).2 = fs
    rw [hsh _ ow ([], fs)]

/-- C10: with `dryrun = true`, `shuffle` returns a `ShuffleResult` for
every input — the destination-exists conflict is only detected by the
`mkdir` that dry-run skips, so a dry run never skips an input, whatever
`overwrite` is and whatever already exists on the filesystem. -/
theorem shuffle_dryrun_reports_all :
    ∀ (inputs : List ShuffleInput) (ow : Bool) (fs : FS),
      shuffle inputs ow true fs =
        (inputs.map (fun i => ShuffleResult.mk i.source i.destination i.pattern), fs) := by
  intro inputs ow fs
  have hc : ∀ (self : FSR) (src dst : Path) (fs2 : FS),
      FileStructureRequirement.copy self src dst ow true fs2 = .ok fs2 :=
    fun self src dst fs2 => copyFuel_dryrun _ self src dst ow fs2
  show (inputs.foldl _ ([], fs)) = _
  have : ∀ (l : List ShuffleInput) (st : List ShuffleResult × FS),
      (l.foldl (fun st i =>
        match i.pattern.copy i.source i.destination ow true st.2 with
        | .ok fs2 => (st.1 ++ [⟨i.source, i.destination, i.pattern⟩], fs2)
        | .error _ => st) st) =
      (st.1 ++ l.map (fun i => ShuffleResult.mk i.source i.destination i.pattern), st.2) := by
    intro l
    induction l with
    | nil => intro st; simp
    | cons i is ih =>
      intro st
      rw [List.foldl_cons]
      have hstep : (match i.pattern.copy i.source i.destination ow true st.2 with
          | .ok fs2 => (st.1 ++ [⟨i.source, i.destination, i.pattern⟩], fs2)
          | .error _ => st) =
          (st.1 ++ [ShuffleResult.mk i.source i.destination i.pattern], st.2) := by
        rw [hc]
      rw [hstep, ih]
      simp
  rw [this inputs ([], fs)]
  simp

theorem copy_error_of_existing_destination (self : FSR) (src dst : Path) (fs : FS)
    (h : existsPath fs dst = true) :
    FileStructureRequirement.copy self src dst false false fs = .error () := by
  unfold FileStructureRequirement.copy
  cases hsz : FileStructureRequirement.size self with
  | zero =>
    have := size_pos self
    omega
  | succ k =>
    simp [FileStructureRequirement.copyFuel, mkdir, h]

theorem shuffle_foldl_shift (ow dr : Bool) :
    ∀ (l : List ShuffleInput) (st : List ShuffleResult × FS),
      l.foldl (fun st i =>
        match i.pattern.copy i.source i.destination ow dr st.2 with
        | .ok fs2 => (st.1 ++ [⟨i.source, i.destination, i.pattern⟩], fs2)
        | .error _ => st) st =
      (st.1 ++ (l.foldl (fun st i =>
        match i.pattern.copy i.source i.destination ow dr st.2 with
        | .ok fs2 => (st.1 ++ [⟨i.source, i.destination, i.pattern⟩], fs2)
        | .error _ => st) (([] : List ShuffleResult), st.2)).1,
       (l.foldl (fun st i =>
        match i.pattern.copy i.source i.destination ow dr st.2 with
        | .ok fs2 => (st.1 ++ [⟨i.source, i.destination, i.pattern⟩], fs2)
        | .error _ => st) (([] : List ShuffleResult), st.2)).2) := by
  intro l
  induction l with
  | nil =>
    intro st
    simp
  | cons i is ih =>
    intro st
    simp only [List.foldl_cons]
    cases hc : i.pattern.copy i.source i.destination ow dr st.2 with
    | ok fs2 =>
      simp only [hc, List.nil_append]
      rw [ih (st.1 ++ [ShuffleResult.mk i.source i.destination i.pattern], fs2),
        ih ([ShuffleResult.mk i.source i.destination i.pattern], fs2)]
      simp
    | error e =>
      simp only [hc]
      exact ih st

/-- C5: with `overwrite = false` and `dryrun = false`, an input whose
destination already exists fails inside `copy` at the very first step
(the `mkdir`), before any file of that input is copied, so the
filesystem is untouched by it; `shuffle` catches the failure, skips
that input and continues with the rest, returning exactly the results
of the inputs whose copy succeeded (in particular, a batch whose only
input has a pre-existing destination returns the empty list and the
unchanged filesystem). -/
theorem shuffle_skips_existing_destination :
    (∀ (fs : FS) (i : ShuffleInput) (rest : List ShuffleInput),
      existsPath fs i.destination = true →
      (i.pattern.copy i.source i.destination false false fs = .error () ∧
       shuffle (i :: rest) false false fs = shuffle rest false false fs ∧
       shuffle [i] false false fs = ([], fs))) ∧
    (∀ (fs fs2 : FS) (i : ShuffleInput) (rest : List ShuffleInput) (ow dr : Bool),
      i.pattern.copy i.source i.destination ow dr fs = .ok fs2 →
      shuffle (i :: rest) ow dr fs =
        (ShuffleResult.mk i.source i.destination i.pattern :: (shuffle rest ow dr fs2).1,
         (shuffle rest ow dr fs2).2)) ∧
    (∀ (inputs : List ShuffleInput) (ow dr : Bool) (fs : FS),
      ((shuffle inputs ow dr fs).1.map (fun r => (r.source, r.destination, r.pattern))).Sublist
        (inputs.map (fun i => (i.source, i.destination, i.pattern)))) := by
  refine ⟨?_, ?_, ?_⟩
  case refine_2 =>
    intro fs fs2 i rest ow dr hok
    show ((i :: rest).foldl _ ([], fs)) = _
    simp only [List.foldl_cons]
    simp only [hok, List.nil_append]
    rw [shuffle_foldl_shift ow dr rest
      ([ShuffleResult.mk i.source i.destination i.pattern], fs2)]
    simp [shuffle]
  case refine_1 =>
    intro fs i rest h
    have hce := copy_error_of_existing_destination i.pattern i.source i.destination fs h
    refine ⟨hce, ?_, ?_⟩
    · show ((i :: rest).foldl _ ([], fs)) = (rest.foldl _ ([], fs))
      simp only [List.foldl_cons, hce]
    · show ([i].foldl _ ([], fs)) = ([], fs)
      simp only [List.foldl_cons, hce, List.foldl_nil]
  case refine_3 =>
    intro inputs ow dr fs
    have haux : ∀ (l : List ShuffleInput) (st : List ShuffleResult × FS),
        (((l.foldl (fun st i =>
            match i.pattern.copy i.source i.destination ow dr st.2 with
            | .ok fs2 => (st.1 ++ [⟨i.source, i.destination, i.pattern⟩], fs2)
            | .error _ => st) st).1).map (fun r => (r.source, r.destination, r.pattern))).Sublist
          (st.1.map (fun r => (r.source, r.destination, r.pattern)) ++
            l.map (fun i => (i.source, i.destination, i.pattern))) := by
      intro l
      induction l with
      | nil =>
        intro st
        simp
      | cons i is ih =>
        intro st
        simp only [List.foldl_cons, List.map_cons]
        cases hc : i.pattern.copy i.source i.destination ow dr st.2 with
        | ok fs2 =>
          have := ih (st.1 ++ [⟨i.source, i.destination, i.pattern⟩], fs2)
          simp only [List.map_append, List.map_cons, List.map_nil] at this
          rw [List.append_assoc] at this
          simpa using this
        | error e =>
          have := ih st
          refine this.trans ?_
          apply List.Sublist.append_left
          exact List.Sublist.cons _ (List.Sublist.refl _)
    have := haux inputs ([], fs)
    simpa using this

/-- C5 witness: a single input whose destination pre-exists yields the
empty result list and an unchanged filesystem, while an input whose
copy succeeds contributes its result. -/
theorem shuffle_skips_existing_destination_witness :
    shuffle [⟨["src"], ["dest"], FileStructureRequirement.empty⟩] false false
      [(["dest"], Entry.dir)] = ([], [(["dest"], Entry.dir)]) ∧
    shuffle [⟨["src"], ["dst2"], FileStructureRequirement.empty⟩] false false
      [(["dest"], Entry.dir)] =
      ([ShuffleResult.mk ["src"] ["dst2"] FileStructureRequirement.empty],
       [(["dest"], Entry.dir), (["dst2"], Entry.dir)]) := by
  constructor
  · exact ((shuffle_skips_existing_destination.1 [(["dest"], Entry.dir)]
      ⟨["src"], ["dest"], FileStructureRequirement.empty⟩ []) (by decide)).2.2
  · have h := shuffle_skips_existing_destination.2.1 [(["dest"], Entry.dir)]
      [(["dest"], Entry.dir), (["dst2"], Entry.dir)]
      ⟨["src"], ["dst2"], FileStructureRequirement.empty⟩ [] false false (by decide)
    simpa [shuffle] using h

/-! ## Claim C6: every matching sub-pattern fires, not only the first -/

def branchA : FSR := .mk none ["*.a"] [] [] []

def branchB : FSR := .mk none ["*.b"] [] [] []

def twoBranchPattern : FSR := .mk none [] [branchA, branchB] [] []

def twoFileTree (ca cb : String) : FS :=
  [(["src"], .dir), (["src", "sub"], .dir),
   (["src", "sub", "x.a"], .file ca), (["src", "sub", "x.b"], .file cb)]

/-- C6 (amended): the copy recursion tries every sub-pattern in
`all_directories` against each immediate subdirectory and recurses for
each one that matches, in order — not only the first: the branch loop
continues with the remaining sub-patterns both after a non-matching
branch and after a matching branch has recursed (on the filesystem the
recursion produced).  Concretely, a subdirectory matching two
sub-patterns is copied once per sub-pattern into the same destination:
with `overwrite = true` the destination accumulates both branches'
files, and with `overwrite = false` the second recursion fails with the
already-exists error. -/
theorem copy_all_matching_branches :
    (∀ (fuel : Nat) (b : FSR) (bs : List FSR) (d : String) (src dst : Path)
       (ow dr : Bool) (fs : FS),
      (b.matches fs (fsTriple fs (src ++ [d])) = false →
        (b :: bs).foldlM (fun acc2 b2 =>
            if b2.matches acc2 (fsTriple acc2 (src ++ [d])) then
              FileStructureRequirement.copyFuel fuel b2 (src ++ [d]) (dst ++ [d]) ow dr acc2
            else Except.ok acc2) fs =
          bs.foldlM (fun acc2 b2 =>
            if b2.matches acc2 (fsTriple acc2 (src ++ [d])) then
              FileStructureRequirement.copyFuel fuel b2 (src ++ [d]) (dst ++ [d]) ow dr acc2
            else Except.ok acc2) fs) ∧
      (b.matches fs (fsTriple fs (src ++ [d])) = true →
        (b :: bs).foldlM (fun acc2 b2 =>
            if b2.matches acc2 (fsTriple acc2 (src ++ [d])) then
              FileStructureRequirement.copyFuel fuel b2 (src ++ [d]) (dst ++ [d]) ow dr acc2
            else Except.ok acc2) fs =
          (FileStructureRequirement.copyFuel fuel b (src ++ [d]) (dst ++ [d]) ow dr fs).bind
            (fun fs2 => bs.foldlM (fun acc2 b2 =>
              if b2.matches acc2 (fsTriple acc2 (src ++ [d])) then
                FileStructureRequirement.copyFuel fuel b2 (src ++ [d]) (dst ++ [d]) ow dr acc2
              else Except.ok acc2) fs2))) ∧
    FileStructureRequirement.copy twoBranchPattern ["src"] ["dst"] true false
        (twoFileTree "A" "B") =
      .ok (twoFileTree "A" "B" ++
        [(["dst"], .dir), (["dst", "sub"], .dir),
         (["dst", "sub", "x.a"], .file "A"), (["dst", "sub", "x.b"], .file "B")]) ∧
    FileStructureRequirement.copy twoBranchPattern ["src"] ["dst"] false false
        (twoFileTree "A" "B") = .error () := by
  refine ⟨?_, by decide, by decide⟩
  intro fuel b bs d src dst ow dr fs
  constructor
  · intro h
    rw [List.foldlM_cons]
    simp [h]
    rfl
  · intro h
    rw [List.foldlM_cons]
    simp [h]
    rfl

/-- C6 witness: the matching-branch clause applied at a concrete
subdirectory that the branch matches. -/
theorem copy_all_matching_branches_witness :
    ([branchA].foldlM (fun acc2 b2 =>
        if b2.matches acc2 (fsTriple acc2 (["src"] ++ ["sub"])) then
          FileStructureRequirement.copyFuel 1 b2 (["src"] ++ ["sub"]) (["dst"] ++ ["sub"])
            true false acc2
        else Except.ok acc2) (twoFileTree "A" "B")) =
      (FileStructureRequirement.copyFuel 1 branchA (["src"] ++ ["sub"]) (["dst"] ++ ["sub"])
          true false (twoFileTree "A" "B")).bind
        (fun fs2 => ([] : List FSR).foldlM (fun acc2 b2 =>
          if b2.matches acc2 (fsTriple acc2 (["src"] ++ ["sub"])) then
            FileStructureRequirement.copyFuel 1 b2 (["src"] ++ ["sub"]) (["dst"] ++ ["sub"])
              true false acc2
          else Except.ok acc2) fs2) :=
  (copy_all_matching_branches.1 1 branchA [] "sub" ["src"] ["dst"] true false
    (twoFileTree "A" "B")).2 (by decide)

/-- C6 counterexample: on a subdirectory matched by both sub-patterns,
the code copies it once per matching sub-pattern (the destination ends
up with both `x.a` and `x.b`), while the spec-modelled first-match-only
copy uses only the first sub-pattern (only `x.a` arrives) — the claim
that exactly the first matching sub-pattern determines a single copy is
false on the code. -/
theorem copy_not_first_only :
    FileStructureRequirement.copy twoBranchPattern ["src"] ["dst"] true false
        (twoFileTree "A" "B") =
      .ok (twoFileTree "A" "B" ++
        [(["dst"], .dir), (["dst", "sub"], .dir),
         (["dst", "sub", "x.a"], .file "A"), (["dst", "sub", "x.b"], .file "B")]) ∧
    FileStructureRequirement.copySpecFirst twoBranchPattern ["src"] ["dst"] true false
        (twoFileTree "A" "B") =
      .ok (twoFileTree "A" "B" ++
        [(["dst"], .dir), (["dst", "sub"], .dir),
         (["dst", "sub", "x.a"], .file "A")]) := by
  decide

/-! ## Claim C7: permission errors in scan/assess -/

def hiddenTree : FS :=
  [(["root"], .dir), (["root", "hidden"], .dir), (["root", "hidden", "target"], .dir),
   (["root", "hidden", "target", "file.txt"], .file "x")]

def targetPattern : FSR := .mk (some "target") ["file.txt"] [] [] []

/-- C7 counterexample: with the intermediate directory unreadable,
`scan` silently returns a partial result set — the matching directory
below it is missing and no error is raised — contradicting the claim
that filesystem access errors during scan propagate to the caller. -/
theorem scan_swallows_permission_error :
    ScanResult.mk ["root", "hidden", "target"] targetPattern ∈
      scan hiddenTree [] ["root"] [targetPattern] ∧
    ScanResult.mk ["root", "hidden", "target"] targetPattern ∉
      scan hiddenTree [["root", "hidden"]] ["root"] [targetPattern] := by
  decide

theorem iterdirE_ok (fs : FS) (unread : List Path) (p : Path)
    (tr : Path × List String × List String)
    (h : iterdirE fs unread p = .ok tr) : p ∉ unread ∧ tr = fsTriple fs p := by
  unfold iterdirE at h
  by_cases hu : p ∈ unread
  · simp [hu] at h
  · simp [hu] at h
    exact ⟨hu, h.symm⟩

/-- C7 (amended): `walk` catches `PermissionError` per directory and
continues, so no triple it yields is unreadable and unreadable subtrees
are silently dropped from `scan`'s (partial) result; `assess`, by
contrast, has no handler around `iterdir`, so a permission error on any
candidate root propagates out of `assess` as an error. -/
theorem walk_skips_unreadable_assess_propagates :
    (∀ (fs : FS) (unread : List Path) (fuel : Nat) (stack : List Path)
       (t : Path × List String × List String),
      t ∈ walkAux fs unread fuel stack → t.1 ∉ unread) ∧
    (∀ (fs : FS) (unread : List Path) (file : Path) (p : FSR) (ps : List FSR),
      (∃ r ∈ parents_of file, r ∈ unread) →
      assess fs unread file (p :: ps) = .error ()) := by
  constructor
  · intro fs unread fuel
    induction fuel with
    | zero =>
      intro stack t ht
      cases stack with
      | nil => simp [walkAux] at ht
      | cons a as => simp [walkAux] at ht
    | succ f ih =>
      intro stack t ht
      cases stack with
      | nil => simp [walkAux] at ht
      | cons a as =>
        rw [walkAux.eq_def] at ht
        simp only [] at ht
        split at ht
        · exact ih _ t ht
        · rename_i tr heq
          obtain ⟨hu, htr⟩ := iterdirE_ok _ _ _ _ heq
          rw [List.mem_cons] at ht
          rcases ht with ht | ht
          · subst ht
            rw [htr]
            exact hu
          · exact ih _ t ht
  · intro fs unread file p ps hex
    have hroots : ∀ (roots : List Path) (acc : List ScanResult) (q : FSR),
        (∃ r ∈ roots, r ∈ unread) →
        roots.foldlM (fun acc2 root =>
          match iterdirE fs unread root with
          | .error e => Except.error e
          | .ok t =>
            if q.matches fs t then Except.ok (acc2 ++ [ScanResult.mk root q])
            else Except.ok acc2) acc = .error () := by
      intro roots
      induction roots with
      | nil =>
        intro acc q h
        simp at h
      | cons r rs ih =>
        intro acc q h
        rw [List.foldlM_cons]
        by_cases hr : r ∈ unread
        · have : iterdirE fs unread r = .error () := by simp [iterdirE, hr]
          rw [this]
          rfl
        · have hok : iterdirE fs unread r = .ok (fsTriple fs r) := by simp [iterdirE, hr]
          rw [hok]
          have hin : ∃ x ∈ rs, x ∈ unread := by
            rcases h with ⟨x, hx, hxu⟩
            rcases List.mem_cons.mp hx with hx2 | hx2
            · subst hx2; exact absurd hxu hr
            · exact ⟨x, hx2, hxu⟩
          by_cases hm : q.matches fs (fsTriple fs r) = true
          · simp only [hm, if_true]
            exact ih (acc ++ [ScanResult.mk r q]) q hin
          · simp only [hm, if_false]
            exact ih acc q hin
    unfold assess
    rw [List.foldlM_cons]
    rw [hroots (parents_of file) [] p hex]
    rfl

/-- C7 witness: on the concrete tree, the triple `walk` yields for the
root is readable, and `assess` on a file below the unreadable directory
returns a permission error. -/
theorem walk_skips_unreadable_assess_propagates_witness :
    ((["root"] : Path) ∉ ([["root", "hidden"]] : List Path)) ∧
    assess hiddenTree [["root", "hidden"]] ["root", "hidden", "target", "file.txt"]
      [targetPattern] = .error () :=
  ⟨walk_skips_unreadable_assess_propagates.1 hiddenTree [["root", "hidden"]] 5 [["root"]]
      (["root"], ["hidden"], []) (by decide),
   walk_skips_unreadable_assess_propagates.2 hiddenTree [["root", "hidden"]]
      ["root", "hidden", "target", "file.txt"] targetPattern []
      ⟨["root", "hidden"], by decide, by decide⟩⟩

end Pathvein
